import Mathlib

/-!
A verification development for `src/sw/sintable.cpp`, the table-based
sinewave generator of the cordic repository.  The file embeds:

* the numeric table construction of `sintable` (full-period table) and
  `quarterwav` (quarter-period table), with the C `double → long`
  conversion modelled as truncation toward zero of a real number;
* the control flow of the two generator functions (size checks, the
  `assert`, emission order, and the hand-off to the table persister);
* the clocked update logic of the emitted quarter-wave module (the
  fold pipeline and the auxiliary shift register) as a step function
  on an explicit state record.
-/

open Real

/-- Truncation toward zero, the behaviour of the C conversion from
`double` to `long` used in `tbldata[k] = maxv * sin(ph)`. -/
noncomputable def truncR (x : ℝ) : ℤ :=
  if 0 ≤ x then ⌊x⌋ else ⌈x⌉

/-- `long maxv = (1l<<(ow-1))-1l;` from both builders. -/
def maxv (ow : ℕ) : ℤ := 2 ^ (ow - 1) - 1

/-- Phase argument of the direct builder:
`ph = 2.0 * M_PI * (double)k / (double)tbl_entries` with
`tbl_entries = (1<<lgtable)`. -/
noncomputable def phDirect (pw k : ℕ) : ℝ := 2 * π * k / 2 ^ pw

/-- Phase argument of the quarter-wave builder:
`ph = 2.0 * M_PI * (double)k / (double)tbl_entries; ph += M_PI / (double)tbl_entries;`. -/
noncomputable def phQuarter (pw k : ℕ) : ℝ := 2 * π * k / 2 ^ pw + π / 2 ^ pw

/-- Entry `k` of the direct table: `tbldata[k] = (long)maxv * sin(ph)`
assigned to a `long`, i.e. truncated toward zero. -/
noncomputable def directEntry (pw ow k : ℕ) : ℤ :=
  truncR ((maxv ow : ℝ) * Real.sin (phDirect pw k))

/-- Entry `k` of the quarter table: `tbldata[k] = maxv * sin(ph)`
assigned to a `long`, i.e. truncated toward zero. -/
noncomputable def quarterEntry (pw ow k : ℕ) : ℤ :=
  truncR ((maxv ow : ℝ) * Real.sin (phQuarter pw k))

/-- The table built by `sintable`: `for(int k=0; k<tbl_entries; k++)`. -/
noncomputable def directTable (pw ow : ℕ) : List ℤ :=
  (List.range (2 ^ pw)).map (directEntry pw ow)

/-- The meaningful part of the table built by `quarterwav`:
`for(int k=0; k<tbl_entries/4; k++)` (only these entries are handed to
the persister, which is invoked with `lgtable-2`). -/
noncomputable def quarterTable (pw ow : ℕ) : List ℤ :=
  (List.range (2 ^ pw / 4)).map (quarterEntry pw ow)

/-! ### The quarter-wave fold, from the emitted clocked logic

`negate[0] <= i_phase[(PW-1)];`
`if (i_phase[(PW-2)]) index <= ~i_phase[(PW-3):0]; else index <= i_phase[(PW-3):0];`
-/

/-- Top phase bit, `i_phase[(PW-1)]`. -/
def foldNegate (pw k : ℕ) : Bool := k.testBit (pw - 1)

/-- Second-from-top phase bit, `i_phase[(PW-2)]`. -/
def foldQuad (pw k : ℕ) : Bool := k.testBit (pw - 2)

/-- Low `PW-2` bits of the phase, `i_phase[(PW-3):0]`. -/
def foldSub (pw k : ℕ) : ℕ := k % 2 ^ (pw - 2)

/-- The folded table index: the bitwise complement of a `PW-2`-bit value
`v` is `2^(PW-2) - 1 - v`. -/
def foldIndex (pw k : ℕ) : ℕ :=
  if foldQuad pw k then 2 ^ (pw - 2) - 1 - foldSub pw k else foldSub pw k

/-- The combinational value the emitted pipeline reconstructs for phase
`k`: fetch the folded quarter-table entry, then conditionally negate
(`if (negate[1]) o_val <= -tblvalue; else o_val <= tblvalue;`). -/
noncomputable def qwReconstruct (pw ow k : ℕ) : ℤ :=
  if foldNegate pw k then -(quarterEntry pw ow (foldIndex pw k))
  else quarterEntry pw ow (foldIndex pw k)

/-! ### Basic lemmas about truncation -/

theorem truncR_neg (x : ℝ) : truncR (-x) = -truncR x := by
  unfold truncR
  rcases lt_trichotomy x 0 with h | h | h
  · rw [if_pos (by linarith), if_neg (not_le.mpr h), Int.floor_neg]
  · simp [h]
  · rw [if_neg (by simpa using h), if_pos h.le, Int.ceil_neg]

theorem truncR_intCast (z : ℤ) : truncR (z : ℝ) = z := by
  unfold truncR
  split <;> simp

theorem truncR_zero : truncR 0 = 0 := by
  simpa using truncR_intCast 0

/-! ### Generator control flow

Both `sintable` and `quarterwav` first validate the table size, then
write the module text to the output stream, then build the numeric
table and hand it to the persister.  The emission events record, in
order, what has been written to the stream when the function returns
or dies.
-/

/-- Fatal conditions of the generators: `exit(EXIT_FAILURE)` after the
size diagnostic, and the failed `assert(lgtable>2)`. -/
inductive GenError where
  | resourceLimit
  | precondition
  deriving DecidableEq

/-- One fragment of module text written to the output stream, in
emission order.  `memoryDecl d` records the declared depth of the
lookup memory (`tbl [0:((1<<PW)-1)]`, resp.
`quartertable [0:((1<<(PW-2))-1)]`). -/
inductive Emit where
  | legalHeader
  | moduleHeader
  | memoryDecl (depth : ℕ)
  | clockedLogic
  | auxLogic
  | endmodule
  deriving DecidableEq

/-- Outcome of one generator call: the fatal error if any, the text
fragments written to the stream before returning or dying, and the
`(lgtable, table)` pair handed to `hextable`, if reached. -/
structure GenResult where
  error : Option GenError
  written : List Emit
  persisted : Option (ℕ × List ℤ)

/-- Modelled from the spec: the Table Persister `hextable` is declared
in `hexfile.h`, whose implementation is not under `src/`.  Per §6 the
persister writes one numeric entry per table position and the persisted
table has the length implied by the `lgtable` argument it receives,
i.e. the first `2^lg` entries of the data it is handed. -/
def hextablePersist (lg : ℕ) (tbl : List ℤ) : List ℤ := tbl.take (2 ^ lg)

/-- Control flow of `sintable`: the `lgtable >= 24` check runs before
`legal(fp, ...)` and every `fprintf`, and before `new long[...]`;
on success the table is built and handed to `hextable(fname, lgtable, ow, tbldata)`. -/
noncomputable def sintableGen (lg ow : ℕ) (with_aux : Bool) : GenResult :=
  if 24 ≤ lg then
    { error := some .resourceLimit, written := [], persisted := none }
  else
    { error := none
      written := [.legalHeader, .moduleHeader, .memoryDecl (1 <<< lg), .clockedLogic]
        ++ (if with_aux then [.auxLogic] else []) ++ [.endmodule]
      persisted := some (lg, hextablePersist lg (directTable lg ow)) }

/-- Control flow of `quarterwav`: `assert(lgtable>2)` runs first, then
the `lgtable >= 26` check, both before `legal(fp, ...)` and every
`fprintf`; on success the quarter table is built and handed to
`hextable(fname, lgtable-2, ow, tbldata)`. -/
noncomputable def quarterwavGen (lg ow : ℕ) (with_aux : Bool) : GenResult :=
  if ¬ 2 < lg then
    { error := some .precondition, written := [], persisted := none }
  else if 26 ≤ lg then
    { error := some .resourceLimit, written := [], persisted := none }
  else
    { error := none
      written := [.legalHeader, .moduleHeader, .memoryDecl (1 <<< (lg - 2)), .clockedLogic]
        ++ (if with_aux then [.auxLogic] else []) ++ [.endmodule]
      persisted := some (lg - 2, hextablePersist (lg - 2) (quarterTable lg ow)) }

/-! ### The emitted quarter-wave module as a state machine

State and step function transcribed from the clocked blocks emitted by
`quarterwav` (with `with_reset` and `with_aux` available; `i_reset`
has priority over `i_ce`, and a reset clears every register).
-/

/-- The registers of the emitted quarter-wave module: `negate[1:0]`,
`index`, `tblvalue`, `o_val`, and the auxiliary registers `aux[1:0]`
and `o_aux`. -/
structure QWState where
  negate0 : Bool
  negate1 : Bool
  index : ℕ
  tblvalue : ℤ
  o_val : ℤ
  aux0 : Bool
  aux1 : Bool
  o_aux : Bool
  deriving DecidableEq

/-- Inputs sampled at one clock edge. -/
structure QWInput where
  reset : Bool
  ce : Bool
  phase : ℕ
  aux : Bool

/-- The all-zero register state. -/
def qwZero : QWState :=
  { negate0 := false, negate1 := false, index := 0, tblvalue := 0,
    o_val := 0, aux0 := false, aux1 := false, o_aux := false }

/-- One clock edge of the emitted module.  Main block:
`negate[0] <= i_phase[(PW-1)]`, `index <= (~)i_phase[(PW-3):0]`,
`tblvalue <= quartertable[index]`, `negate[1] <= negate[0]`,
`o_val <= negate[1] ? -tblvalue : tblvalue`.  Auxiliary block:
`{ o_aux, aux } <= { aux, i_aux }`.  Under reset all of them are
cleared (`negate <= 2'b00; index <= 0; tblvalue <= 0; o_val <= 0;`
and `{ o_aux, aux } <= 0;`). -/
def qwStep (pw : ℕ) (tbl : ℕ → ℤ) (s : QWState) (i : QWInput) : QWState :=
  if i.reset then qwZero
  else if i.ce then
    { negate0 := i.phase.testBit (pw - 1)
      negate1 := s.negate0
      index := if i.phase.testBit (pw - 2)
               then 2 ^ (pw - 2) - 1 - i.phase % 2 ^ (pw - 2)
               else i.phase % 2 ^ (pw - 2)
      tblvalue := tbl s.index
      o_val := if s.negate1 then -s.tblvalue else s.tblvalue
      aux0 := i.aux
      aux1 := s.aux0
      o_aux := s.aux1 }
  else s

/-! ### Table access lemmas -/

theorem directTable_length (pw ow : ℕ) : (directTable pw ow).length = 2 ^ pw := by
  simp [directTable]

theorem quarterTable_length (pw ow : ℕ) : (quarterTable pw ow).length = 2 ^ pw / 4 := by
  simp [quarterTable]

theorem pow_div_four (pw : ℕ) (h : 2 ≤ pw) : 2 ^ pw / 4 = 2 ^ (pw - 2) := by
  obtain ⟨m, rfl⟩ : ∃ m, pw = m + 2 := ⟨pw - 2, (Nat.sub_add_cancel h).symm⟩
  rw [pow_add]
  norm_num

theorem directTable_getElem (pw ow k : ℕ) (h : k < 2 ^ pw) :
    (directTable pw ow)[k]? = some (directEntry pw ow k) := by
  rw [directTable, List.getElem?_map, List.getElem?_range h, Option.map_some']

theorem quarterTable_getElem (pw ow k : ℕ) (h : k < 2 ^ pw / 4) :
    (quarterTable pw ow)[k]? = some (quarterEntry pw ow k) := by
  rw [quarterTable, List.getElem?_map, List.getElem?_range h, Option.map_some']

/-! ### The angle arithmetic behind the quarter-wave fold -/

theorem phQuarter_eq (pw k : ℕ) :
    phQuarter pw k = π * (2 * (k : ℝ) + 1) / 2 ^ pw := by
  unfold phQuarter
  have h : (2 : ℝ) ^ pw ≠ 0 := by positivity
  field_simp
  ring

/-- Folding the second quadrant half: the sample at phase `2^m + s` has
the same sine as the stored sample at the complemented index. -/
theorem sin_phQuarter_fold (m s : ℕ) (hs : s < 2 ^ m) :
    Real.sin (phQuarter (m + 2) (2 ^ m + s)) =
      Real.sin (phQuarter (m + 2) (2 ^ m - 1 - s)) := by
  have hs' : 1 + s ≤ 2 ^ m := by omega
  have h2 : (2 : ℝ) ^ (m + 2) ≠ 0 := by positivity
  have e1 : phQuarter (m + 2) (2 ^ m + s) =
      π / 2 + π * (2 * (s : ℝ) + 1) / 2 ^ (m + 2) := by
    rw [phQuarter_eq]
    push_cast
    field_simp
    ring
  have e2 : phQuarter (m + 2) (2 ^ m - 1 - s) =
      π / 2 - π * (2 * (s : ℝ) + 1) / 2 ^ (m + 2) := by
    rw [phQuarter_eq, Nat.sub_sub, Nat.cast_sub hs']
    push_cast
    field_simp
    ring
  rw [e1, e2, add_comm, Real.sin_add_pi_div_two, Real.sin_pi_div_two_sub]

/-- Folding the second half of the period: adding `2^(m+1)` to the
phase negates the sine. -/
theorem sin_phQuarter_half (m j : ℕ) :
    Real.sin (phQuarter (m + 2) (2 ^ (m + 1) + j)) =
      -Real.sin (phQuarter (m + 2) j) := by
  have e : phQuarter (m + 2) (2 ^ (m + 1) + j) = phQuarter (m + 2) j + π := by
    rw [phQuarter_eq, phQuarter_eq]
    push_cast
    field_simp
    ring
  rw [e, Real.sin_add_pi]

/-- Helper: the fold data of a decomposed phase `2^m * hi + s`. -/
theorem fold_decomp (m hi s : ℕ) (hs : s < 2 ^ m) :
    foldNegate (m + 2) (2 ^ m * hi + s) = decide (hi / 2 % 2 = 1) ∧
    foldQuad (m + 2) (2 ^ m * hi + s) = decide (hi % 2 = 1) ∧
    foldSub (m + 2) (2 ^ m * hi + s) = s := by
  have hQ : 0 < 2 ^ m := by positivity
  have hdiv : (2 ^ m * hi + s) / 2 ^ m = hi := by
    rw [Nat.mul_add_div hQ, Nat.div_eq_of_lt hs, add_zero]
  have hdiv2 : (2 ^ m * hi + s) / 2 ^ (m + 1) = hi / 2 := by
    rw [pow_succ, ← Nat.div_div_eq_div_mul, hdiv]
  refine ⟨?_, ?_, ?_⟩
  · show (2 ^ m * hi + s).testBit (m + 1) = _
    rw [Nat.testBit_to_div_mod, hdiv2]
  · show (2 ^ m * hi + s).testBit m = _
    rw [Nat.testBit_to_div_mod, hdiv]
  · show (2 ^ m * hi + s) % 2 ^ m = s
    rw [Nat.mul_add_mod, Nat.mod_eq_of_lt hs]

/-- C1: folding the quarter table and conditionally negating
reproduces the half-bin-offset reference value for every phase. -/
theorem claim1_reconstruction (pw ow k : ℕ) (hpw2 : 2 < pw) (hpw26 : pw < 26)
    (hk : k < 2 ^ pw) :
    qwReconstruct pw ow k =
      truncR ((maxv ow : ℝ) * Real.sin (2 * π * ((k : ℝ) + 1 / 2) / 2 ^ pw)) := by
  have hph : 2 * π * ((k : ℝ) + 1 / 2) / 2 ^ pw = phQuarter pw k := by
    unfold phQuarter
    have h : (2 : ℝ) ^ pw ≠ 0 := by positivity
    field_simp
    ring
  rw [hph]
  obtain ⟨m, rfl⟩ : ∃ m, pw = m + 2 := ⟨pw - 2, by omega⟩
  obtain ⟨hi, s, hs, rfl⟩ : ∃ hi s, s < 2 ^ m ∧ k = 2 ^ m * hi + s :=
    ⟨k / 2 ^ m, k % 2 ^ m, Nat.mod_lt _ (by positivity), (Nat.div_add_mod k (2 ^ m)).symm⟩
  obtain ⟨hb1, hb2, hb3⟩ := fold_decomp m hi s hs
  have hi4 : hi < 4 := by
    have e : 2 ^ (m + 2) = 2 ^ m * 4 := by rw [pow_add]; norm_num
    have h1 : 2 ^ m * hi < 2 ^ m * 4 := lt_of_le_of_lt (Nat.le_add_right _ s) (e ▸ hk)
    exact Nat.lt_of_mul_lt_mul_left h1
  unfold qwReconstruct foldIndex
  interval_cases hi
  · -- first quadrant: no negate, no complement
    rw [hb1, hb2, hb3]
    norm_num
    rfl
  · -- second quadrant: complemented index, no negate
    rw [hb1, hb2, hb3]
    norm_num
    unfold quarterEntry
    rw [sin_phQuarter_fold m s hs]
  · -- third quadrant: negate, no complement
    rw [hb1, hb2, hb3]
    norm_num
    show -quarterEntry (m + 2) ow s = _
    rw [show 2 ^ m * 2 + s = 2 ^ (m + 1) + s by ring]
    unfold quarterEntry
    rw [sin_phQuarter_half m s, mul_neg, truncR_neg]
  · -- fourth quadrant: negate and complemented index
    rw [hb1, hb2, hb3]
    norm_num
    show -quarterEntry (m + 2) ow (2 ^ m - 1 - s) = _
    rw [show 2 ^ m * 3 + s = 2 ^ (m + 1) + (2 ^ m + s) by ring]
    unfold quarterEntry
    rw [sin_phQuarter_half m (2 ^ m + s), sin_phQuarter_fold m s hs, mul_neg, truncR_neg]

/-- C1 witness: a concrete instance in the fourth quadrant. -/
theorem claim1_reconstruction_witness :
    2 < 3 ∧ 3 < 26 ∧ 5 < 2 ^ 3 ∧
      qwReconstruct 3 4 5 =
        truncR ((maxv 4 : ℝ) * Real.sin (2 * π * (((5 : ℕ) : ℝ) + 1 / 2) / 2 ^ 3)) :=
  ⟨by norm_num, by norm_num, by norm_num,
    claim1_reconstruction 3 4 5 (by norm_num) (by norm_num) (by norm_num)⟩

/-- C9: a reset cycle clears every pipeline register (both negate
flags, the index, the intermediate table value, the output, and the
auxiliary shift register) in that one cycle, whatever the prior state
and the other inputs. -/
theorem claim9_reset_clears (pw : ℕ) (tbl : ℕ → ℤ) (s : QWState) (i : QWInput)
    (h : i.reset = true) : qwStep pw tbl s i = qwZero := by
  unfold qwStep
  rw [h]
  rfl

/-- C9 witness: a fully dirty state cleared by one reset edge. -/
theorem claim9_reset_clears_witness :
    ({ reset := true, ce := true, phase := 9, aux := true } : QWInput).reset = true ∧
      qwStep 4 (fun _ => 7)
        { negate0 := true, negate1 := true, index := 3, tblvalue := 5,
          o_val := -2, aux0 := true, aux1 := true, o_aux := true }
        { reset := true, ce := true, phase := 9, aux := true } = qwZero :=
  ⟨rfl, claim9_reset_clears 4 (fun _ => 7)
    { negate0 := true, negate1 := true, index := 3, tblvalue := 5,
      o_val := -2, aux0 := true, aux1 := true, o_aux := true }
    { reset := true, ce := true, phase := 9, aux := true } rfl⟩

/-- C2 counterexample: starting from the all-zero state, the auxiliary
bit submitted on the first enabled cycle has NOT reached `o_aux` two
enabled cycles later; it arrives on the third enabled cycle. -/
theorem claim2_counterexample :
    (qwStep 3 (fun _ => 0)
        (qwStep 3 (fun _ => 0) qwZero { reset := false, ce := true, phase := 0, aux := true })
        { reset := false, ce := true, phase := 0, aux := false }).o_aux = false ∧
      (qwStep 3 (fun _ => 0)
          (qwStep 3 (fun _ => 0)
            (qwStep 3 (fun _ => 0) qwZero { reset := false, ce := true, phase := 0, aux := true })
            { reset := false, ce := true, phase := 0, aux := false })
          { reset := false, ce := true, phase := 0, aux := false }).o_aux = true :=
  ⟨rfl, rfl⟩

/-- C2 (amended): the auxiliary value travels through `aux[0]`,
`aux[1]` and the registered output, so it appears at `o_aux` exactly 3
enabled cycles after submission — and the primary path has the same
3-cycle latency: `o_val` then shows the reconstruction of the phase
submitted alongside. -/
theorem claim2_aux_latency (pw : ℕ) (tbl : ℕ → ℤ) (s : QWState) (i0 i1 i2 : QWInput)
    (h0r : i0.reset = false) (h0c : i0.ce = true)
    (h1r : i1.reset = false) (h1c : i1.ce = true)
    (h2r : i2.reset = false) (h2c : i2.ce = true) :
    (qwStep pw tbl (qwStep pw tbl (qwStep pw tbl s i0) i1) i2).o_aux = i0.aux ∧
      (qwStep pw tbl (qwStep pw tbl (qwStep pw tbl s i0) i1) i2).o_val =
        (if foldNegate pw i0.phase then -(tbl (foldIndex pw i0.phase))
         else tbl (foldIndex pw i0.phase)) := by
  simp [qwStep, h0r, h0c, h1r, h1c, h2r, h2c, foldNegate, foldIndex, foldQuad, foldSub]

/-- C2 witness: three enabled cycles carry the bit (and the matching
sample) to the outputs. -/
theorem claim2_aux_latency_witness :
    ({ reset := false, ce := true, phase := 5, aux := true } : QWInput).reset = false ∧
      (qwStep 3 (fun j => j + 1)
          (qwStep 3 (fun j => j + 1)
            (qwStep 3 (fun j => j + 1) qwZero
              { reset := false, ce := true, phase := 5, aux := true })
            { reset := false, ce := true, phase := 0, aux := false })
          { reset := false, ce := true, phase := 0, aux := false }).o_aux = true ∧
      (qwStep 3 (fun j => j + 1)
          (qwStep 3 (fun j => j + 1)
            (qwStep 3 (fun j => j + 1) qwZero
              { reset := false, ce := true, phase := 5, aux := true })
            { reset := false, ce := true, phase := 0, aux := false })
          { reset := false, ce := true, phase := 0, aux := false }).o_val = -2 := by
  refine ⟨rfl, ?_, ?_⟩
  · exact (claim2_aux_latency 3 (fun j => j + 1) qwZero
      { reset := false, ce := true, phase := 5, aux := true }
      { reset := false, ce := true, phase := 0, aux := false }
      { reset := false, ce := true, phase := 0, aux := false }
      rfl rfl rfl rfl rfl rfl).1
  · have h := (claim2_aux_latency 3 (fun j => j + 1) qwZero
      { reset := false, ce := true, phase := 5, aux := true }
      { reset := false, ce := true, phase := 0, aux := false }
      { reset := false, ce := true, phase := 0, aux := false }
      rfl rfl rfl rfl rfl rfl).2
    rw [h]
    decide

/-- C6: the emitted quarter-wave module declares a memory of
`2^(PW-2)` entries, and the persister is invoked with `lgtable-2` and
receives a table of exactly `2^(PW-2)` entries. -/
theorem claim6_quarter_size (pw ow : ℕ) (aux : Bool) (h2 : 2 < pw) (h26 : pw < 26) :
    Emit.memoryDecl (2 ^ (pw - 2)) ∈ (quarterwavGen pw ow aux).written ∧
      (quarterwavGen pw ow aux).persisted = some (pw - 2, quarterTable pw ow) ∧
      (quarterTable pw ow).length = 2 ^ (pw - 2) := by
  have hlen : (quarterTable pw ow).length = 2 ^ (pw - 2) := by
    rw [quarterTable_length, pow_div_four pw (by omega)]
  have htake : hextablePersist (pw - 2) (quarterTable pw ow) = quarterTable pw ow := by
    unfold hextablePersist
    rw [← hlen]
    exact List.take_length _
  unfold quarterwavGen
  rw [if_neg (by omega), if_neg (by omega)]
  refine ⟨?_, ?_, hlen⟩
  · simp [Nat.one_shiftLeft]
  · rw [htake]

/-- C6 witness: the smallest legal quarter-wave configuration. -/
theorem claim6_quarter_size_witness :
    2 < 3 ∧ 3 < 26 ∧
      (Emit.memoryDecl (2 ^ (3 - 2)) ∈ (quarterwavGen 3 8 false).written ∧
        (quarterwavGen 3 8 false).persisted = some (3 - 2, quarterTable 3 8) ∧
        (quarterTable 3 8).length = 2 ^ (3 - 2)) :=
  ⟨by norm_num, by norm_num, claim6_quarter_size 3 8 false (by norm_num) (by norm_num)⟩

/-- C7: `sintable` succeeds at `lgtable = 23`; for `lgtable ≥ 24` it
dies with the resource-limit diagnostic having written no module text
and allocated/persisted no table. -/
theorem claim7_direct_size_check (lg ow : ℕ) (aux : Bool) (h : 24 ≤ lg) :
    (sintableGen 23 ow aux).error = none ∧
      (sintableGen lg ow aux).error = some GenError.resourceLimit ∧
      (sintableGen lg ow aux).written = [] ∧
      (sintableGen lg ow aux).persisted = none := by
  unfold sintableGen
  rw [if_pos h, if_neg (by norm_num)]
  exact ⟨rfl, rfl, rfl, rfl⟩

/-- C7 witness at the failing boundary `lgtable = 24`. -/
theorem claim7_direct_size_check_witness :
    24 ≤ 24 ∧
      ((sintableGen 23 8 false).error = none ∧
        (sintableGen 24 8 false).error = some GenError.resourceLimit ∧
        (sintableGen 24 8 false).written = [] ∧
        (sintableGen 24 8 false).persisted = none) :=
  ⟨by norm_num, claim7_direct_size_check 24 8 false (by norm_num)⟩

/-- C8: `quarterwav` dies on the failed `assert(lgtable>2)` for
`lgtable ≤ 2` and on the resource limit for `lgtable ≥ 26`, in both
cases before writing anything; `lgtable = 3` succeeds. -/
theorem claim8_quarter_checks (lgp lgr ow : ℕ) (aux : Bool)
    (hp : lgp ≤ 2) (hr : 26 ≤ lgr) :
    (quarterwavGen lgp ow aux).error = some GenError.precondition ∧
      (quarterwavGen lgp ow aux).written = [] ∧
      (quarterwavGen lgr ow aux).error = some GenError.resourceLimit ∧
      (quarterwavGen lgr ow aux).written = [] ∧
      (quarterwavGen 3 ow aux).error = none := by
  unfold quarterwavGen
  rw [if_pos (by omega : ¬ 2 < lgp), if_neg (by omega : ¬ ¬ 2 < lgr), if_pos hr,
    if_neg (show ¬ ¬ 2 < 3 by norm_num), if_neg (show ¬ 26 ≤ 3 by norm_num)]
  exact ⟨rfl, rfl, rfl, rfl, rfl⟩

/-- C8 witness at both failing boundaries. -/
theorem claim8_quarter_checks_witness :
    2 ≤ 2 ∧ 26 ≤ 26 ∧
      ((quarterwavGen 2 8 false).error = some GenError.precondition ∧
        (quarterwavGen 2 8 false).written = [] ∧
        (quarterwavGen 26 8 false).error = some GenError.resourceLimit ∧
        (quarterwavGen 26 8 false).written = [] ∧
        (quarterwavGen 3 8 false).error = none) :=
  ⟨by norm_num, by norm_num, claim8_quarter_checks 2 26 8 false (by norm_num) (by norm_num)⟩

/-- C10: neither builder validates `ow`; with `ow = 1` both run to
completion and every entry is `truncR (0 * sin ph) = 0` because
`maxv 1 = 0`. -/
theorem claim10_no_ow_validation (pw pq k kq : ℕ) (aux : Bool)
    (hpw : pw < 24) (hq2 : 2 < pq) (hq26 : pq < 26)
    (hk : k < 2 ^ pw) (hkq : kq < 2 ^ pq / 4) :
    (sintableGen pw 1 aux).error = none ∧
      (quarterwavGen pq 1 aux).error = none ∧
      (directTable pw 1)[k]? = some 0 ∧
      (quarterTable pq 1)[kq]? = some 0 := by
  have hm : maxv 1 = 0 := rfl
  have hd : directEntry pw 1 k = 0 := by
    unfold directEntry
    rw [hm]
    push_cast
    rw [zero_mul]
    exact truncR_zero
  have hq : quarterEntry pq 1 kq = 0 := by
    unfold quarterEntry
    rw [hm]
    push_cast
    rw [zero_mul]
    exact truncR_zero
  refine ⟨?_, ?_, ?_, ?_⟩
  · unfold sintableGen
    rw [if_neg (by omega)]
  · unfold quarterwavGen
    rw [if_neg (by omega), if_neg (by omega)]
  · rw [directTable_getElem _ _ _ hk, hd]
  · rw [quarterTable_getElem _ _ _ hkq, hq]

/-- C10 witness: `ow = 1` at small sizes, first entries both zero. -/
theorem claim10_no_ow_validation_witness :
    4 < 24 ∧ 2 < 3 ∧ 3 < 26 ∧ 0 < 2 ^ 4 ∧ 0 < 2 ^ 3 / 4 ∧
      ((sintableGen 4 1 false).error = none ∧
        (quarterwavGen 3 1 false).error = none ∧
        (directTable 4 1)[0]? = some 0 ∧
        (quarterTable 3 1)[0]? = some 0) :=
  ⟨by norm_num, by norm_num, by norm_num, by norm_num, by norm_num,
    claim10_no_ow_validation 4 3 0 0 false (by norm_num) (by norm_num) (by norm_num)
      (by norm_num) (by norm_num)⟩

/-! ### Range of the table entries -/

theorem truncR_bounds (c : ℤ) (hc : 0 ≤ c) (x : ℝ)
    (h1 : -(c : ℝ) ≤ x) (h2 : x ≤ c) : -c ≤ truncR x ∧ truncR x ≤ c := by
  unfold truncR
  split
  next h =>
    refine ⟨le_trans (neg_nonpos.mpr hc) (Int.floor_nonneg.mpr h), ?_⟩
    calc ⌊x⌋ ≤ ⌊(c : ℝ)⌋ := Int.floor_le_floor h2
      _ = c := Int.floor_intCast c
  next h =>
    push_neg at h
    refine ⟨?_, le_trans (Int.ceil_le.mpr (by exact_mod_cast h.le)) hc⟩
    have hcast : ((-c : ℤ) : ℝ) ≤ x := by push_cast; exact h1
    calc -c = ⌈((-c : ℤ) : ℝ)⌉ := (Int.ceil_intCast _).symm
      _ ≤ ⌈x⌉ := Int.ceil_le_ceil hcast

theorem maxv_nonneg (ow : ℕ) : 0 ≤ maxv ow := by
  unfold maxv
  have h : (0 : ℤ) < 2 ^ (ow - 1) := pow_pos (by norm_num) _
  omega

theorem directEntry_range (pw ow k : ℕ) :
    -maxv ow ≤ directEntry pw ow k ∧ directEntry pw ow k ≤ maxv ow := by
  have hc := maxv_nonneg ow
  have hcr : (0 : ℝ) ≤ (maxv ow : ℝ) := by exact_mod_cast hc
  have hs1 := Real.neg_one_le_sin (phDirect pw k)
  have hs2 := Real.sin_le_one (phDirect pw k)
  exact truncR_bounds (maxv ow) hc _ (by nlinarith) (by nlinarith)

theorem quarterEntry_range (pw ow k : ℕ) :
    -maxv ow ≤ quarterEntry pw ow k ∧ quarterEntry pw ow k ≤ maxv ow := by
  have hc := maxv_nonneg ow
  have hcr : (0 : ℝ) ≤ (maxv ow : ℝ) := by exact_mod_cast hc
  have hs1 := Real.neg_one_le_sin (phQuarter pw k)
  have hs2 := Real.sin_le_one (phQuarter pw k)
  exact truncR_bounds (maxv ow) hc _ (by nlinarith) (by nlinarith)

/-- C4: every entry of either table lies in `[-maxv, maxv]`. -/
theorem claim4_entry_range (pwd pwq ow kd kq : ℕ) (how : 2 ≤ ow)
    (hpwd : pwd < 24) (hq2 : 2 < pwq) (hq26 : pwq < 26)
    (hkd : kd < 2 ^ pwd) (hkq : kq < 2 ^ pwq / 4) :
    (directTable pwd ow)[kd]? = some (directEntry pwd ow kd) ∧
      -maxv ow ≤ directEntry pwd ow kd ∧ directEntry pwd ow kd ≤ maxv ow ∧
      (quarterTable pwq ow)[kq]? = some (quarterEntry pwq ow kq) ∧
      -maxv ow ≤ quarterEntry pwq ow kq ∧ quarterEntry pwq ow kq ≤ maxv ow :=
  ⟨directTable_getElem pwd ow kd hkd,
    (directEntry_range pwd ow kd).1, (directEntry_range pwd ow kd).2,
    quarterTable_getElem pwq ow kq hkq,
    (quarterEntry_range pwq ow kq).1, (quarterEntry_range pwq ow kq).2⟩

/-- C4 witness. -/
theorem claim4_entry_range_witness :
    2 ≤ 2 ∧ 4 < 24 ∧ 2 < 3 ∧ 3 < 26 ∧ 0 < 2 ^ 4 ∧ 0 < 2 ^ 3 / 4 ∧
      ((directTable 4 2)[0]? = some (directEntry 4 2 0) ∧
        -maxv 2 ≤ directEntry 4 2 0 ∧ directEntry 4 2 0 ≤ maxv 2 ∧
        (quarterTable 3 2)[0]? = some (quarterEntry 3 2 0) ∧
        -maxv 2 ≤ quarterEntry 3 2 0 ∧ quarterEntry 3 2 0 ≤ maxv 2) :=
  ⟨by norm_num, by norm_num, by norm_num, by norm_num, by norm_num, by norm_num,
    claim4_entry_range 4 3 2 0 0 (by norm_num) (by norm_num) (by norm_num) (by norm_num)
      (by norm_num) (by norm_num)⟩

/-! ### Concrete numeric values -/

theorem sin_pi_div_sixteen_scaled :
    (24.5 : ℝ) < 127 * Real.sin (π / 16) ∧ 127 * Real.sin (π / 16) < 25 := by
  have hgt := Real.pi_gt_d6
  have hlt := Real.pi_lt_d6
  have hx_pos : 0 < π / 16 := by
    have := Real.pi_pos
    linarith
  have hx_le : π / 16 ≤ 1 := by linarith
  have h1 := Real.sin_gt_sub_cube hx_pos hx_le
  have h2 := Real.sin_lt hx_pos
  have hx3 : (π / 16) ^ 3 < (3.141593 / 16) ^ 3 := by
    apply pow_lt_pow_left₀ (by linarith) (by linarith) (by norm_num)
  constructor
  · nlinarith
  · nlinarith

theorem truncR_127_sin_pi_div_sixteen : truncR ((127 : ℝ) * Real.sin (π / 16)) = 24 := by
  obtain ⟨hlo, hhi⟩ := sin_pi_div_sixteen_scaled
  unfold truncR
  rw [if_pos (by linarith)]
  apply Int.floor_eq_iff.mpr
  constructor
  · push_cast
    linarith
  · push_cast
    linarith

theorem round_127_sin_pi_div_sixteen : round ((127 : ℝ) * Real.sin (π / 16)) = 25 := by
  obtain ⟨hlo, hhi⟩ := sin_pi_div_sixteen_scaled
  rw [round_eq]
  apply Int.floor_eq_iff.mpr
  constructor
  · push_cast
    linarith
  · push_cast
    linarith

theorem phQuarter_4_0 : phQuarter 4 0 = π / 16 := by
  unfold phQuarter
  norm_num

theorem maxv_8_cast : ((maxv 8 : ℤ) : ℝ) = 127 := by
  norm_num [maxv]

/-- C3: both builders truncate toward zero after real sine evaluation;
the quarter table at `(4, 8)` has length 4 and entry 0 equal to 24,
while rounding to nearest would have given 25. -/
theorem claim3_truncation (pw ow k pw' ow' k' : ℕ)
    (hpw : 2 < pw) (hk : k < 2 ^ (pw - 2)) (hk' : k' < 2 ^ pw') :
    (quarterTable pw ow)[k]? =
        some (truncR ((maxv ow : ℝ) * Real.sin (phQuarter pw k))) ∧
      (directTable pw' ow')[k']? =
        some (truncR ((maxv ow' : ℝ) * Real.sin (phDirect pw' k'))) ∧
      (quarterTable 4 8).length = 4 ∧
      (quarterTable 4 8)[0]? = some 24 ∧
      truncR ((127 : ℝ) * Real.sin (π / 16)) = 24 ∧
      round ((127 : ℝ) * Real.sin (π / 16)) = 25 := by
  have hk4 : k < 2 ^ pw / 4 := by
    rw [pow_div_four pw (by omega)]
    exact hk
  refine ⟨quarterTable_getElem pw ow k hk4, directTable_getElem pw' ow' k' hk', ?_, ?_,
    truncR_127_sin_pi_div_sixteen, round_127_sin_pi_div_sixteen⟩
  · rw [quarterTable_length]
    norm_num
  · rw [quarterTable_getElem 4 8 0 (by norm_num)]
    congr 1
    unfold quarterEntry
    rw [phQuarter_4_0, maxv_8_cast]
    exact truncR_127_sin_pi_div_sixteen

/-- C3 witness. -/
theorem claim3_truncation_witness :
    2 < 4 ∧ 0 < 2 ^ (4 - 2) ∧ 0 < 2 ^ 4 ∧
      ((quarterTable 4 8)[0]? =
          some (truncR ((maxv 8 : ℝ) * Real.sin (phQuarter 4 0))) ∧
        (directTable 4 8)[0]? =
          some (truncR ((maxv 8 : ℝ) * Real.sin (phDirect 4 0))) ∧
        (quarterTable 4 8).length = 4 ∧
        (quarterTable 4 8)[0]? = some 24 ∧
        truncR ((127 : ℝ) * Real.sin (π / 16)) = 24 ∧
        round ((127 : ℝ) * Real.sin (π / 16)) = 25) :=
  ⟨by norm_num, by norm_num, by norm_num,
    claim3_truncation 4 8 0 4 8 0 (by norm_num) (by norm_num) (by norm_num)⟩

theorem sqrt_two_scaled :
    (179 : ℝ) < 127 * Real.sqrt 2 ∧ 127 * Real.sqrt 2 < 180 := by
  have hs2 : Real.sqrt 2 ^ 2 = 2 := Real.sq_sqrt (by norm_num)
  have hnn : (0 : ℝ) ≤ Real.sqrt 2 := Real.sqrt_nonneg 2
  constructor
  · nlinarith
  · nlinarith

theorem phDirect_4_2 : phDirect 4 2 = π / 4 := by
  unfold phDirect
  push_cast
  ring

theorem directEntry_4_8_2 : directEntry 4 8 2 = 89 := by
  unfold directEntry
  rw [phDirect_4_2, Real.sin_pi_div_four, maxv_8_cast]
  obtain ⟨hlo, hhi⟩ := sqrt_two_scaled
  unfold truncR
  rw [if_pos (by positivity)]
  apply Int.floor_eq_iff.mpr
  constructor
  · push_cast
    linarith
  · push_cast
    linarith

/-- C5 counterexample: the direct builder truncates, it does not round
to nearest: at `phaseWidth=4, outputWidth=8, k=2` the stored entry is
`89` while `round(127·sin(2π·2/16)) = 90`. -/
theorem claim5_counterexample :
    (directTable 4 8)[2]? = some 89 ∧
      round ((maxv 8 : ℝ) * Real.sin (phDirect 4 2)) = 90 := by
  constructor
  · rw [directTable_getElem 4 8 2 (by norm_num), directEntry_4_8_2]
  · rw [phDirect_4_2, Real.sin_pi_div_four, maxv_8_cast]
    obtain ⟨hlo, hhi⟩ := sqrt_two_scaled
    rw [round_eq]
    apply Int.floor_eq_iff.mpr
    constructor
    · push_cast
      linarith
    · push_cast
      linarith

/-- C5 (amended): the direct table has length `2^pw` and entry
`k` equal to `truncR(maxv · sin(2πk/2^pw))` (truncation toward zero,
not rounding); the concrete scenario values hold. -/
theorem claim5_direct_table (pw ow k : ℕ) (hpw : pw < 24) (hk : k < 2 ^ pw) :
    (directTable pw ow)[k]? =
        some (truncR ((maxv ow : ℝ) * Real.sin (phDirect pw k))) ∧
      (directTable pw ow).length = 2 ^ pw ∧
      maxv 8 = 127 ∧
      (directTable 4 8).length = 16 ∧
      (directTable 4 8)[0]? = some 0 ∧
      (directTable 4 8)[4]? = some 127 := by
  refine ⟨directTable_getElem pw ow k hk, directTable_length pw ow, by decide, ?_, ?_, ?_⟩
  · rw [directTable_length]
    norm_num
  · rw [directTable_getElem 4 8 0 (by norm_num)]
    congr 1
    unfold directEntry
    have hph : phDirect 4 0 = 0 := by
      unfold phDirect
      norm_num
    rw [hph, Real.sin_zero, mul_zero]
    exact truncR_zero
  · rw [directTable_getElem 4 8 4 (by norm_num)]
    congr 1
    unfold directEntry
    have hph : phDirect 4 4 = π / 2 := by
      unfold phDirect
      push_cast
      ring
    rw [hph, Real.sin_pi_div_two, mul_one,
      show ((maxv 8 : ℤ) : ℝ) = ((127 : ℤ) : ℝ) by norm_num [maxv]]
    exact truncR_intCast 127

/-- C5 witness. -/
theorem claim5_direct_table_witness :
    4 < 24 ∧ 0 < 2 ^ 4 ∧
      ((directTable 4 8)[0]? =
          some (truncR ((maxv 8 : ℝ) * Real.sin (phDirect 4 0))) ∧
        (directTable 4 8).length = 2 ^ 4 ∧
        maxv 8 = 127 ∧
        (directTable 4 8).length = 16 ∧
        (directTable 4 8)[0]? = some 0 ∧
        (directTable 4 8)[4]? = some 127) :=
  ⟨by norm_num, by norm_num, claim5_direct_table 4 8 0 (by norm_num) (by norm_num)⟩
